import Mathlib

/-!
Verification development for the `rust-mcts` repository (`src/mcts.rs`,
`src/twofortyeight.rs`).

Modelling conventions.

* The Rust code computes its statistics and UCT values in `f32`.  We model
  `f32` by the type `F` below: `nan`, the two infinities, and exact finite
  values carried as rationals.  The IEEE special-value rules that the claims
  depend on (`0.0/0.0 = NaN`, `x/0.0 = ±inf`, NaN propagation through `+`,
  `*`, `/`, and every comparison with NaN being false) are modelled exactly;
  finite arithmetic is modelled exactly (no rounding) — every theorem below
  depends only on special-value propagation or on small-integer arithmetic
  that `f32` performs exactly.  The model has a single zero (no `-0.0`);
  no claim distinguishes the sign of zero.
* `f32::ln` and `f32::sqrt` (`ln` is a libm call with no exact contract)
  are passed as explicit function parameters `fln fsqrt : F → F` wherever
  the code calls them; theorems about selection hold for every choice of
  these functions, hence in particular for the real libm.
* Randomness: the repository's `utils::choose_random` is not under `src/`;
  it is modelled from the spec (see `choose_random`) as reading an index
  from an explicit stream of naturals (`Rng`), taken modulo the slice
  length.  All functions thread this stream explicitly.
* Rust panics (`unwrap`, `expect`, `panic!`, failed `assert!`) are modelled
  by `Option`: a `none` result means the Rust code aborts.
* Loops without a structural termination measure (`playout`'s game loop)
  take an explicit fuel argument; the termination theorem shows that under
  the claims' finiteness hypothesis enough fuel makes the loop reach a
  terminal state.
-/

/-- Model of `f32`: NaN, the infinities, and exact finite values. -/
inductive F : Type where
  | nan : F
  | inf : F
  | ninf : F
  | fin : ℚ → F
deriving DecidableEq, Repr

namespace F

/-- IEEE addition on the model (finite arithmetic exact). -/
def add : F → F → F
  | nan, _ => nan
  | _, nan => nan
  | inf, ninf => nan
  | ninf, inf => nan
  | inf, _ => inf
  | _, inf => inf
  | ninf, _ => ninf
  | _, ninf => ninf
  | fin a, fin b => fin (a + b)

/-- IEEE multiplication on the model (finite arithmetic exact). -/
def mul : F → F → F
  | nan, _ => nan
  | _, nan => nan
  | inf, inf => inf
  | inf, ninf => ninf
  | ninf, inf => ninf
  | ninf, ninf => inf
  | inf, fin b => if b = 0 then nan else if 0 < b then inf else ninf
  | fin a, inf => if a = 0 then nan else if 0 < a then inf else ninf
  | ninf, fin b => if b = 0 then nan else if 0 < b then ninf else inf
  | fin a, ninf => if a = 0 then nan else if 0 < a then ninf else inf
  | fin a, fin b => fin (a * b)

/-- IEEE division on the model; `0/0 = NaN`, `x/0 = ±inf` for `x ≠ 0`
(the model's single zero behaves as `+0.0`). -/
def div : F → F → F
  | nan, _ => nan
  | _, nan => nan
  | inf, inf => nan
  | inf, ninf => nan
  | ninf, inf => nan
  | ninf, ninf => nan
  | inf, fin b => if b < 0 then ninf else inf
  | ninf, fin b => if b < 0 then inf else ninf
  | fin _, inf => fin 0
  | fin _, ninf => fin 0
  | fin a, fin b =>
      if b = 0 then (if a = 0 then nan else if 0 < a then inf else ninf)
      else fin (a / b)

/-- IEEE strict `<` as a boolean: every comparison involving NaN is false. -/
def ltB : F → F → Bool
  | nan, _ => false
  | _, nan => false
  | ninf, ninf => false
  | ninf, _ => true
  | _, ninf => false
  | inf, _ => false
  | fin _, inf => true
  | fin a, fin b => decide (a < b)

/-- IEEE `≤` as a boolean: every comparison involving NaN is false. -/
def leB : F → F → Bool
  | nan, _ => false
  | _, nan => false
  | ninf, _ => true
  | _, ninf => false
  | _, inf => true
  | inf, _ => false
  | fin a, fin b => decide (a ≤ b)

instance : Add F := ⟨F.add⟩
instance : Mul F := ⟨F.mul⟩
instance : Div F := ⟨F.div⟩

theorem add_def (a b : F) : a + b = F.add a b := rfl

theorem mul_def (a b : F) : a * b = F.mul a b := rfl

theorem div_def (a b : F) : a / b = F.div a b := rfl

@[simp] theorem nan_add (a : F) : F.nan + a = F.nan := by
  cases a <;> rfl

@[simp] theorem add_nan (a : F) : a + F.nan = F.nan := by
  cases a <;> rfl

@[simp] theorem fin_add_fin (a b : ℚ) : F.fin a + F.fin b = F.fin (a + b) := rfl

@[simp] theorem fin_div_fin_zero_zero : F.fin 0 / F.fin 0 = F.nan := rfl

@[simp] theorem ltB_nan (a : F) : F.ltB a F.nan = false := by
  cases a <;> rfl

@[simp] theorem nan_ltB (a : F) : F.ltB F.nan a = false := by
  cases a <;> rfl

end F

/-- Explicit stream of random draws: the next natural number the generator
produces, `0` once the listed entropy is exhausted. -/
abbrev Rng : Type := List ℕ

/-- Produce the next random natural and the rest of the stream. -/
def Rng.draw : Rng → ℕ × Rng
  | [] => (0, [])
  | r :: rs => (r, rs)

/-- Modelled from the spec: `utils::choose_random` (the `utils` module is
not under `src/`) picks one element of a slice uniformly at random — "pick
one action uniformly at random".  Modelled by drawing an index from the
rng stream modulo the slice length; `none` (panic) on an empty slice. -/
def choose_random (l : List α) (rng : Rng) : Option (α × Rng) :=
  match l with
  | [] => none
  | x :: xs =>
      let (r, rng') := Rng.draw rng
      some ((x :: xs).getD (r % (xs.length + 1)) x, rng')

theorem choose_random_mem {l : List α} {rng : Rng} {a : α} {rng' : Rng}
    (h : choose_random l rng = some (a, rng')) : a ∈ l := by
  match l with
  | [] => simp [choose_random] at h
  | x :: xs =>
      simp only [choose_random] at h
      obtain ⟨h1, _⟩ := Prod.mk.injEq .. ▸ (Option.some.injEq .. ▸ h)
      subst h1
      have hlt : (Rng.draw rng).1 % (xs.length + 1) < (x :: xs).length := by
        simp [Nat.mod_lt]
      rw [List.getD_eq_getElem _ _ hlt]
      exact List.getElem_mem hlt

@[simp] theorem choose_random_nil (rng : Rng) :
    choose_random ([] : List α) rng = none := rfl

theorem choose_random_isSome {l : List α} (h : l ≠ []) (rng : Rng) :
    (choose_random l rng).isSome := by
  match l with
  | [] => exact absurd rfl h
  | x :: xs => simp [choose_random]

/-- The capability contract `Game` of `mcts.rs` (trait `Game<A>`): legal
actions, in-place move application (modelled functionally), and a scalar
`f32` reward. -/
structure GameM (S A : Type) where
  allowed_actions : S → List A
  make_move : S → A → S
  reward : S → F

namespace GameM

variable {S A : Type}

/-- `playout` from `mcts.rs`: clone the state (implicit in the functional
model) and repeatedly apply a uniformly random allowed action until no
action is allowed.  The `while` loop carries no structural measure, so the
model takes fuel; with fuel `0` remaining the model stops early (the code
would keep looping). -/
def playout (g : GameM S A) : ℕ → S → Rng → S × Rng
  | 0, s, rng => (s, rng)
  | fuel + 1, s, rng =>
      match choose_random (g.allowed_actions s) rng with
      | none => (s, rng)
      | some (a, rng') => playout g fuel (g.make_move s a) rng'

/-- `expected_reward` accumulator loop from `mcts.rs`: `score_sum` starts
at `0.0` and accumulates `playout(game).reward()` once per sample. -/
def expectedRewardAux (g : GameM S A) (pf : ℕ) : ℕ → S → F → Rng → F × Rng
  | 0, _, acc, rng => (acc, rng)
  | k + 1, s, acc, rng =>
      let (s', rng') := playout g pf s rng
      expectedRewardAux g pf k s (acc + g.reward s') rng'

/-- `expected_reward` from `mcts.rs`: the accumulated playout rewards
divided by `n_samples as f32`. -/
def expected_reward (g : GameM S A) (pf : ℕ) (s : S) (n_samples : ℕ)
    (rng : Rng) : F × Rng :=
  let (sum, rng') := expectedRewardAux g pf n_samples s (F.fin 0) rng
  (sum / F.fin n_samples, rng')

/-- The list of individual sample rewards `reward(playout(state))` drawn by
`expected_reward`, in draw order. -/
def sampleRewards (g : GameM S A) (pf : ℕ) : ℕ → S → Rng → List F × Rng
  | 0, _, rng => ([], rng)
  | k + 1, s, rng =>
      let (s', rng') := playout g pf s rng
      let (rest, rng'') := sampleRewards g pf k s rng'
      (g.reward s' :: rest, rng'')

theorem expectedRewardAux_eq_foldl (g : GameM S A) (pf : ℕ) :
    ∀ (k : ℕ) (s : S) (acc : F) (rng : Rng),
      expectedRewardAux g pf k s acc rng =
        ((sampleRewards g pf k s rng).1.foldl F.add acc,
          (sampleRewards g pf k s rng).2) := by
  intro k
  induction k with
  | zero => intro s acc rng; rfl
  | succ k ih =>
      intro s acc rng
      simp only [expectedRewardAux, sampleRewards]
      rw [ih]
      rfl

end GameM

/-- `TreeNode` from `mcts.rs`: the action that led here (`None` only for
the root), the explored children, the terminal / fully-expanded flags, and
the `f32` statistics `n`, `q`. -/
inductive TreeNode (A : Type) : Type where
  | mk : Option A → List (TreeNode A) → Bool → Bool → F → F → TreeNode A

namespace TreeNode

variable {A : Type}

def action : TreeNode A → Option A
  | mk a _ _ _ _ _ => a

def children : TreeNode A → List (TreeNode A)
  | mk _ c _ _ _ _ => c

def terminal_state : TreeNode A → Bool
  | mk _ _ t _ _ _ => t

def fullyExpanded : TreeNode A → Bool
  | mk _ _ _ f _ _ => f

def nStat : TreeNode A → F
  | mk _ _ _ _ n _ => n

def qStat : TreeNode A → F
  | mk _ _ _ _ _ q => q

@[simp] theorem action_mk (a c t f n q) : (mk (A := A) a c t f n q).action = a := rfl

@[simp] theorem children_mk (a c t f n q) : (mk (A := A) a c t f n q).children = c := rfl

@[simp] theorem terminal_mk (a c t f n q) : (mk (A := A) a c t f n q).terminal_state = t := rfl

@[simp] theorem fullyExpanded_mk (a c t f n q) : (mk (A := A) a c t f n q).fullyExpanded = f := rfl

@[simp] theorem nStat_mk (a c t f n q) : (mk (A := A) a c t f n q).nStat = n := rfl

@[simp] theorem qStat_mk (a c t f n q) : (mk (A := A) a c t f n q).qStat = q := rfl

theorem eta (t : TreeNode A) :
    mk t.action t.children t.terminal_state t.fullyExpanded t.nStat t.qStat = t := by
  cases t; rfl

/-- `TreeNode::new` from `mcts.rs`: no children, both flags false, `n = q = 0.0`. -/
def new (action : Option A) : TreeNode A :=
  mk action [] false false (F.fin 0) (F.fin 0)

/-- The UCT1 selection value of one child, exactly as written in
`best_child`: `child.q / child.n + c*(2.*self.n.ln()/child.n).sqrt()`.
`fln`/`fsqrt` model `f32::ln`/`f32::sqrt`. -/
def uctValue (fln fsqrt : F → F) (c : F) (parentN : F) (child : TreeNode A) : F :=
  child.qStat / child.nStat + c * fsqrt ((F.fin 2 * fln parentN) / child.nStat)

/-- `TreeNode::best_child` from `mcts.rs`.  The Rust function returns a
mutable reference to the argmax child; the model returns its index in
`children` (so callers can update it in place).  `best_value` starts at
`f32::NEG_INFINITY` and a child is taken exactly when `value > best_value`
(an IEEE comparison, false whenever `value` is NaN). -/
def best_child (fln fsqrt : F → F) (c : F) (t : TreeNode A) : Option ℕ :=
  (t.children.foldl
    (fun (st : F × Option ℕ × ℕ) child =>
      let value := uctValue fln fsqrt c t.nStat child
      if F.ltB st.1 value then (value, some st.2.2, st.2.2 + 1)
      else (st.1, st.2.1, st.2.2 + 1))
    (F.ninf, none, 0)).2.1

/-- `TreeNode::expand` from `mcts.rs`.  Returns `none` on panic (a child
whose `action` is `None`, or `choose_random` on an empty candidate slice);
otherwise the updated node, the index of the newly pushed child (`none`
when the state was terminal and no child was pushed), and the rng. -/
def expand [DecidableEq A] (g : GameM S A) (t : TreeNode A) (s : S) (rng : Rng) :
    Option (TreeNode A × Option ℕ × Rng) :=
  let allowed := g.allowed_actions s
  if allowed.length = 0 then
    some (mk t.action t.children true true t.nStat t.qStat, none, rng)
  else
    match t.children.mapM action with
    | none => none
    | some child_actions =>
        let candidate_actions := allowed.filter (fun a => ¬ a ∈ child_actions)
        let fe := if candidate_actions.length = 1 then true else t.fullyExpanded
        match choose_random candidate_actions rng with
        | none => none
        | some (a, rng') =>
            some (mk t.action (t.children ++ [new (some a)]) t.terminal_state fe
                    t.nStat t.qStat,
                  some t.children.length, rng')

end TreeNode

namespace TreeNode

theorem sizeOf_lt_of_mem_children {A : Type} [SizeOf A] {c t : TreeNode A}
    (h : c ∈ t.children) : sizeOf c < sizeOf t := by
  cases t with
  | mk a ch ts fe n q =>
      simp only [children_mk] at h
      have := List.sizeOf_lt_of_mem h
      simp only [mk.sizeOf_spec]
      omega

/-- `TreeNode::iteration` from `mcts.rs`: one recursive MCTS iteration
(select / expand / simulate / backpropagate).  Returns the updated node,
the reward `delta` passed upward, and the rng; `none` models a panic
(the `best_child(c).unwrap()` or `child.action.unwrap()` calls, or a
panic inside `expand`). -/
def iteration [DecidableEq A] (g : GameM S A) (fln fsqrt : F → F) (c : F)
    (pf : ℕ) : TreeNode A → S → Rng → Option (TreeNode A × F × Rng)
  | t, s, rng =>
    if t.terminal_state then
      let delta := g.reward s
      some (mk t.action t.children t.terminal_state t.fullyExpanded
              (t.nStat + F.fin 1) (t.qStat + delta), delta, rng)
    else if t.fullyExpanded then
      match t.best_child fln fsqrt c with
      | none => none
      | some i =>
          match hci : t.children[i]? with
          | none => none
          | some child =>
              match child.action with
              | none => none
              | some a =>
                  match iteration g fln fsqrt c pf child (g.make_move s a) rng with
                  | none => none
                  | some (child', delta, rng') =>
                      some (mk t.action (t.children.set i child') t.terminal_state
                              t.fullyExpanded (t.nStat + F.fin 1) (t.qStat + delta),
                            delta, rng')
    else
      match t.expand g s rng with
      | none => none
      | some (t1, oj, rng') =>
          match oj with
          | some j =>
              match t1.children[j]? with
              | none => none
              | some child =>
                  match child.action with
                  | none => none
                  | some a =>
                      let s1 := g.make_move s a
                      let (s2, rng2) := g.playout pf s1 rng'
                      let delta := g.reward s2
                      let child' := mk child.action child.children
                        child.terminal_state child.fullyExpanded
                        (child.nStat + F.fin 1) (child.qStat + delta)
                      some (mk t1.action (t1.children.set j child')
                              t1.terminal_state t1.fullyExpanded
                              (t1.nStat + F.fin 1) (t1.qStat + delta), delta, rng2)
          | none =>
              let delta := g.reward s
              some (mk t1.action t1.children t1.terminal_state t1.fullyExpanded
                      (t1.nStat + F.fin 1) (t1.qStat + delta), delta, rng')
  termination_by t => sizeOf t
  decreasing_by
    exact sizeOf_lt_of_mem_children (List.getElem?_mem hci)

/-- The iteration loop of `MCTS::search`: `n_samples` calls of
`root.iteration(&mut game.clone(), c)` — each call starts from a fresh
clone of the same state `s`, the rng stream advances across calls. -/
def iterate [DecidableEq A] (g : GameM S A) (fln fsqrt : F → F) (c : F)
    (pf : ℕ) : ℕ → TreeNode A → S → Rng → Option (TreeNode A × Rng)
  | 0, t, _, rng => some (t, rng)
  | k + 1, t, s, rng =>
      match iteration g fln fsqrt c pf t s rng with
      | none => none
      | some (t', _, rng') => iterate g fln fsqrt c pf k t' s rng'

/-- The best-path walk at the end of `MCTS::search`: starting from the
root, repeatedly follow `best_child(0.)`, pushing each chosen child's
`action.unwrap()`, until `best_child` returns `None`.  `none` models the
`unwrap` panic on a child without an action. -/
def bestActions (fln fsqrt : F → F) : TreeNode A → Option (List A)
  | t =>
    match t.best_child fln fsqrt (F.fin 0) with
    | none => some []
    | some i =>
        match hci : t.children[i]? with
        | none => none
        | some child =>
            match child.action with
            | none => none
            | some a =>
                match bestActions fln fsqrt child with
                | none => none
                | some rest => some (a :: rest)
  termination_by t => sizeOf t
  decreasing_by
    exact sizeOf_lt_of_mem_children (List.getElem?_mem hci)

/-- `MCTS::search` from `mcts.rs`: run `n_samples` iterations against the
stored root (each on a fresh clone of `s`), then extract the best path
with exploration constant `0`.  Returns the action list together with the
updated root field of the `MCTS` struct. -/
def search [DecidableEq A] (g : GameM S A) (fln fsqrt : F → F)
    (root : TreeNode A) (s : S) (n_samples : ℕ) (c : F) (pf : ℕ) (rng : Rng) :
    Option (List A × TreeNode A × Rng) :=
  match iterate g fln fsqrt c pf n_samples root s rng with
  | none => none
  | some (root', rng') =>
      match bestActions fln fsqrt root' with
      | none => none
      | some acts => some (acts, root', rng')

end TreeNode

namespace TFE

/-- The four moves of the 2048 game (`Action` in `twofortyeight.rs`). -/
inductive Action : Type where
  | Up : Action
  | Down : Action
  | Left : Action
  | Right : Action
deriving DecidableEq, Repr

/-- The 4×16 board, row-major, as in `board: [u16; WIDTH*HEIGHT]`.  Tile
values are modelled as `ℕ`; the one tile computation the game performs,
`2*t` in the merge loop, is `u16` arithmetic and is modelled with the
wrap-around `% 2^16` of release builds (a debug build panics at the same
multiplication, so either semantics breaks unconditional sum
conservation at tiles `≥ 32768`). -/
abbrev Board := List ℕ

/-- One step of the duplicate-removal loop in `merge_vec`, acting on the
state `(merged, next, points)`.  The pushed tile `2*t` is `u16`
arithmetic, modelled wrapping (`% 65536`); the points are accumulated as
`2.*(t as f32)` in `f32` — exact and unwrapped for every `u16` input —
and are modelled as exact `ℕ`. -/
def mergeStep (st : Board × ℕ × ℕ) (t : ℕ) : Board × ℕ × ℕ :=
  if t = st.2.1 then (st.1 ++ [2 * t % 65536], 0, st.2.2 + 2 * t)
  else if st.2.1 ≠ 0 then (st.1 ++ [st.2.1], t, st.2.2)
  else (st.1, t, st.2.2)

/-- `TwoFortyEight::merge_vec`: remove zeros, merge equal neighbours once,
pad back to the original length; returns `(merged, points, changed)`. -/
def merge_vec (vec : Board) : Board × ℕ × Bool :=
  let filtered := vec.filter (fun t => 0 < t)
  let res := filtered.foldl mergeStep ([], 0, 0)
  let merged := if res.2.1 ≠ 0 then res.1 ++ [res.2.1] else res.1
  let changed := vec.length ≠ merged.length
  (merged ++ List.replicate (vec.length - merged.length) 0, res.2.2, changed)

/-- The `(start, ostride, istride)` triple of `shift_and_merge`. -/
def strides : Action → ℤ × ℤ × ℤ
  | Action.Up => (0, 1, 4)
  | Action.Down => (12, 1, -4)
  | Action.Left => (0, 4, 1)
  | Action.Right => (15, -4, -1)

/-- The board index `start + outer*ostride + inner*istride` read and
written by `shift_and_merge` (always in `0..16` for `outer, inner < 4`). -/
def idx (a : Action) (outer inner : ℕ) : ℕ :=
  ((strides a).1 + outer * (strides a).2.1 + inner * (strides a).2.2).toNat

/-- The inner read loop of `shift_and_merge`: the lane of four tiles read
from `board` at `start + outer*ostride + inner*istride` for `inner` in
`0..4`. -/
def laneVec (b : Board) (a : Action) (outer : ℕ) : Board :=
  (List.range 4).map (fun inner => b.getD (idx a outer inner) 0)

/-- The inner write loop of `shift_and_merge`: write the four entries of
the merged lane `v` back at the lane's indices. -/
def laneWrite (a : Action) (outer : ℕ) (v : Board) (b : Board) : Board :=
  (List.range 4).foldl (fun bb inner => bb.set (idx a outer inner) (v.getD inner 0)) b

/-- One iteration of the outer loop of `shift_and_merge`: merge one lane,
write it back, accumulate points and the changed flag. -/
def outerStep (b : Board) (a : Action) (st : Board × ℕ × Bool) (outer : ℕ) :
    Board × ℕ × Bool :=
  let m := merge_vec (laneVec b a outer)
  (laneWrite a outer m.1 st.1, st.2.1 + m.2.1, st.2.2 || m.2.2)

/-- `TwoFortyEight::shift_and_merge`: merge each of the four lanes of the
board in the direction of `action` into a fresh zero board, accumulating
points; the points are reported only if some lane changed. -/
def shift_and_merge (board : Board) (action : Action) : Board × Option ℕ :=
  let res := (List.range 4).foldl (outerStep board action)
    (List.replicate 16 0, 0, false)
  (res.1, if res.2.2 then some res.2.1 else none)

/-- `TwoFortyEight::get_tile`. -/
def get_tile (b : Board) (row col : ℕ) : ℕ :=
  b.getD (row * 4 + col) 0

/-- `TwoFortyEight::board_full`: no tile is zero. -/
def board_full (b : Board) : Bool :=
  (List.range 4).all fun row => (List.range 4).all fun col =>
    ! (get_tile b row col == 0)

/-- `TwoFortyEight::random_spawn`.  The code asserts the board is not
full (modelled by `none` — panic) and then draws random cells from the
state's own rng until it hits an empty one, writing a `2` there; the
model places the `2` in the first empty cell in row-major order (the real
loop terminates with probability 1 and writes to some empty cell; which
empty cell receives the `2` is immaterial to every theorem below). -/
def random_spawn (b : Board) : Option Board :=
  if board_full b then none
  else some (match (List.range 16).find? (fun i => b.getD i 0 == 0) with
             | some i => b.set i 2
             | none => b)

/-- The observable `TwoFortyEight` state: the board, the `f32` score
(an exact sum of merge points, modelled as `ℕ`) and the move counter.
The state's private rng is abstracted by `random_spawn`'s model. -/
structure TFEState where
  board : Board
  score : ℕ
  moves : ℕ

/-- `allowed_actions` of the `Game` impl for `TwoFortyEight`: those of the
four directions whose `shift_and_merge` reports points (`Some`). -/
def allowed_actions (b : Board) : List Action :=
  [Action.Up, Action.Down, Action.Left, Action.Right].filter
    (fun a => (shift_and_merge b a).2.isSome)

/-- `make_move` of the `Game` impl for `TwoFortyEight`:
`points.expect("Illegal move")` (panic — `none` — when `shift_and_merge`
reports no change), then score and move-count update, then
`random_spawn` (whose assert can also panic). -/
def make_move (st : TFEState) (action : Action) : Option TFEState :=
  let r := shift_and_merge st.board action
  match r.2 with
  | none => none
  | some p =>
      match random_spawn r.1 with
      | none => none
      | some b2 => some ⟨b2, st.score + p, st.moves + 1⟩

end TFE

namespace TFE

/-- Length contributed by the pending `next` tile of the merge loop. -/
def carryLen (x : ℕ) : ℕ := if x = 0 then 0 else 1

/-- Sum invariant of the merge loop, valid while no merge overflows
`u16`: each consumed tile adds its value to `merged.sum + next`. -/
theorem mergeFold_sum (l : List ℕ) (hb : ∀ t ∈ l, t < 32768) :
    ∀ st : Board × ℕ × ℕ,
      (l.foldl mergeStep st).1.sum + (l.foldl mergeStep st).2.1 =
        st.1.sum + st.2.1 + l.sum := by
  induction l with
  | nil => intro st; simp
  | cons t ts ih =>
      intro st
      rw [List.foldl_cons, ih (fun x hx => hb x (List.mem_cons_of_mem t hx))]
      have hw : 2 * t % 65536 = 2 * t :=
        Nat.mod_eq_of_lt (by have := hb t (List.mem_cons_self t ts); omega)
      unfold mergeStep
      split_ifs with h1 h2 <;>
        simp only [hw, List.sum_append, List.sum_cons, List.sum_nil] <;> omega

theorem mergeStep_len (st : Board × ℕ × ℕ) (t : ℕ) :
    (mergeStep st t).1.length + carryLen (mergeStep st t).2.1 ≤
      st.1.length + carryLen st.2.1 + 1 := by
  unfold mergeStep carryLen
  split_ifs <;> (try simp_all) <;> omega

theorem mergeFold_len (l : List ℕ) : ∀ st : Board × ℕ × ℕ,
    (l.foldl mergeStep st).1.length + carryLen (l.foldl mergeStep st).2.1 ≤
      st.1.length + carryLen st.2.1 + l.length := by
  induction l with
  | nil => intro st; simp
  | cons t ts ih =>
      intro st
      rw [List.foldl_cons]
      refine le_trans (ih _) ?_
      have h := mergeStep_len st t
      simp only [List.length_cons]
      omega

theorem sum_filter_pos (l : List ℕ) : (l.filter (fun t => 0 < t)).sum = l.sum := by
  induction l with
  | nil => rfl
  | cons x xs ih =>
      by_cases h : 0 < x <;> simp [List.filter_cons, h, ih] <;> omega

/-- Structure of a merged lane: the output is an unpadded core plus zero
padding, the core is no longer than the input, the changed flag reports
exactly a strict shrink of the core, and — when no input tile can make a
merge overflow `u16` — the core conserves the input sum. -/
theorem merge_vec_structure (vec : Board) :
    ∃ pre : Board,
      (merge_vec vec).1 = pre ++ List.replicate (vec.length - pre.length) 0 ∧
        pre.length ≤ vec.length ∧
        ((∀ t ∈ vec, t < 32768) → pre.sum = vec.sum) ∧
        (merge_vec vec).2.2 = decide (vec.length ≠ pre.length) := by
  have hl := mergeFold_len (vec.filter (fun t => 0 < t)) ([], 0, 0)
  have hfl : (vec.filter (fun t => 0 < t)).length ≤ vec.length :=
    List.length_filter_le _ _
  simp only [List.length_nil, Nat.zero_add, Nat.add_zero] at hl
  simp only [merge_vec]
  set res := (vec.filter (fun t => 0 < t)).foldl mergeStep ([], 0, 0) with hres
  have hc0 : carryLen 0 = 0 := rfl
  have hsum : (∀ t ∈ vec, t < 32768) → res.1.sum + res.2.1 = vec.sum := by
    intro hb
    have hs := mergeFold_sum (vec.filter (fun t => 0 < t))
      (fun t ht => hb t (List.mem_of_mem_filter ht)) ([], 0, 0)
    have hfs := sum_filter_pos vec
    simp only [List.sum_nil, Nat.zero_add] at hs
    rw [← hres] at hs
    omega
  by_cases h : res.2.1 = 0
  · have hl' : res.1.length ≤ vec.length := by
      rw [show carryLen res.2.1 = 0 by simp [carryLen, h]] at hl
      omega
    refine ⟨res.1, by simp [h], hl', ?_, by simp [h]⟩
    intro hb
    have := hsum hb
    omega
  · have hl' : res.1.length + 1 ≤ vec.length := by
      rw [show carryLen res.2.1 = 1 by simp [carryLen, h]] at hl
      omega
    refine ⟨res.1 ++ [res.2.1], by simp [h], ?_, ?_, by simp [h]⟩
    · simp only [List.length_append, List.length_cons, List.length_nil]
      omega
    · intro hb
      have := hsum hb
      simp only [List.sum_append, List.sum_cons, List.sum_nil]
      omega

theorem merge_vec_length (vec : Board) :
    (merge_vec vec).1.length = vec.length := by
  obtain ⟨pre, h1, h2, -, -⟩ := merge_vec_structure vec
  rw [h1]
  simp only [List.length_append, List.length_replicate]
  omega

theorem merge_vec_sum_of_bounded (vec : Board)
    (hb : ∀ t ∈ vec, t < 32768) : (merge_vec vec).1.sum = vec.sum := by
  obtain ⟨pre, h1, -, h3, -⟩ := merge_vec_structure vec
  rw [h1]
  simp only [List.sum_append, List.sum_replicate, smul_zero, Nat.add_zero]
  exact h3 hb

end TFE

/-- C10 counterexample: at the valid `u16` input `[32768, 32768]` the
merge computes `2*32768` in `u16`, which wraps to `0` (a debug build
panics at the same multiplication), so the returned row is `[0, 0]` with
tile sum `0` while the input tile sum is `65536` — sum conservation
fails on the claim's every-input-vector domain.  (The points, accumulated
in `f32`, are exactly `65536`, and the length is still conserved.) -/
theorem claim_merge_vec_sum_counterexample :
    TFE.merge_vec [32768, 32768] = ([0, 0], 65536, true) ∧
      ([0, 0] : List ℕ).sum ≠ ([32768, 32768] : List ℕ).sum :=
  ⟨rfl, by decide⟩

/-- C10 amended: the tile-merge function always returns a vector of
exactly the input's length, and whenever every input tile is below
`32768` — so no merge can overflow `u16` — the sum of the returned tile
values equals the input's sum (zeros removed, pairs `t, t` replaced by
`2t`, zero padding). -/
theorem claim_merge_vec_length_and_bounded_sum (vec : TFE.Board) :
    (TFE.merge_vec vec).1.length = vec.length ∧
      ((∀ t ∈ vec, t < 32768) → (TFE.merge_vec vec).1.sum = vec.sum) :=
  ⟨TFE.merge_vec_length vec, fun hb => TFE.merge_vec_sum_of_bounded vec hb⟩

theorem claim_merge_vec_length_and_bounded_sum_witness :
    (TFE.merge_vec [2, 2, 4, 4]).1.length = ([2, 2, 4, 4] : List ℕ).length ∧
      (TFE.merge_vec [2, 2, 4, 4]).1.sum = ([2, 2, 4, 4] : List ℕ).sum :=
  ⟨(claim_merge_vec_length_and_bounded_sum [2, 2, 4, 4]).1,
    (claim_merge_vec_length_and_bounded_sum [2, 2, 4, 4]).2 (by decide)⟩

/-- C6: merging the row `[2, 2, 2, 0]` yields `[4, 2, 0, 0]` with points
`4`, and merging `[2, 2, 4, 4]` yields `[4, 8, 0, 0]` with points `12`
(both rows change, so the changed flag is reported). -/
theorem claim_merge_vec_concrete_rows :
    TFE.merge_vec [2, 2, 2, 0] = ([4, 2, 0, 0], 4, true) ∧
      TFE.merge_vec [2, 2, 4, 4] = ([4, 8, 0, 0], 12, true) := by
  constructor <;> rfl

theorem choose_random_eq_none {l : List α} {rng : Rng}
    (h : choose_random l rng = none) : l = [] := by
  match l with
  | [] => rfl
  | x :: xs => simp [choose_random] at h

/-- C2: for every game whose move relation admits a decreasing measure
(the claim's "every maximal chain of `make_move` applications is finite"),
`playout` terminates — enough fuel makes the loop stop — and the returned
state has no allowed actions.  The argument state is untouched: `playout`
works on a clone, which the functional model renders as pure application. -/
theorem claim_playout_reaches_terminal {S A : Type} (g : GameM S A)
    (μ : S → ℕ)
    (hdec : ∀ s a, a ∈ g.allowed_actions s → μ (g.make_move s a) < μ s)
    (s : S) (rng : Rng) (fuel : ℕ) (hfuel : μ s ≤ fuel) :
    g.allowed_actions (g.playout fuel s rng).1 = [] := by
  induction fuel generalizing s rng with
  | zero =>
      simp only [GameM.playout]
      by_contra hne
      obtain ⟨a, ha⟩ := List.exists_mem_of_ne_nil _ hne
      exact absurd (Nat.lt_of_lt_of_le (hdec s a ha) hfuel) (Nat.not_lt_zero _)
  | succ fuel ih =>
      simp only [GameM.playout]
      cases hc : choose_random (g.allowed_actions s) rng with
      | none => exact choose_random_eq_none hc
      | some p =>
          obtain ⟨a, rng'⟩ := p
          have ha : a ∈ g.allowed_actions s := choose_random_mem hc
          exact ih (g.make_move s a) rng'
            (Nat.le_of_lt_succ (Nat.lt_of_lt_of_le (hdec s a ha) hfuel))

/-- A one-action countdown game used to witness the playout theorem. -/
def countdownGame : GameM ℕ Unit :=
  ⟨fun s => if s = 0 then [] else [()], fun s _ => s - 1, fun _ => F.fin 0⟩

theorem claim_playout_reaches_terminal_witness :
    countdownGame.allowed_actions (countdownGame.playout 3 3 []).1 = [] :=
  claim_playout_reaches_terminal countdownGame (fun s => s)
    (fun s a h => by
      cases s with
      | zero => simp [countdownGame] at h
      | succ n => simp [countdownGame])
    3 [] 3 (Nat.le_refl 3)

/-- A terminal one-state game with constant reward `5`. -/
def unitGame : GameM Unit Unit :=
  ⟨fun _ => [], fun s _ => s, fun _ => F.fin 5⟩

/-- C4 counterexample: `expected_reward(state, 0)` is neither rejected
(the code contains no check or panic: the model is total here) nor `0`:
it evaluates `0.0 / 0.0` and returns NaN. -/
theorem claim_expected_reward_zero_counterexample :
    (unitGame.expected_reward 0 () 0 []).1 = F.nan ∧ F.nan ≠ F.fin 0 := by
  exact ⟨rfl, by decide⟩

/-- C4 amended: `expected_reward(state, 0)` silently returns NaN
(`0.0/0.0`); for every `n`, the result is the sum of the `n` sampled
playout rewards divided by `n` — for `n > 0` the arithmetic mean. -/
theorem claim_expected_reward_amended {S A : Type} (g : GameM S A)
    (pf : ℕ) (s : S) (rng : Rng) :
    (g.expected_reward pf s 0 rng).1 = F.nan ∧
      ∀ n : ℕ, (g.expected_reward pf s n rng).1 =
        ((g.sampleRewards pf n s rng).1.foldl F.add (F.fin 0)) / F.fin n := by
  constructor
  · rfl
  · intro n
    rw [GameM.expected_reward, GameM.expectedRewardAux_eq_foldl]

/-- An instantiation of the `f32::ln` parameter, faithful on every input
the closed theorems below evaluate it at (`ln 1 = 0` exactly, `ln 0 =
-inf`, `ln NaN = NaN`, `ln x = NaN` for `x < 0`); remaining positive
finite inputs — never reached in those evaluations — are mapped to NaN. -/
def lnModel : F → F
  | F.nan => F.nan
  | F.inf => F.inf
  | F.ninf => F.nan
  | F.fin x =>
      if x < 0 then F.nan
      else if x = 0 then F.ninf
      else if x = 1 then F.fin 0 else F.nan

/-- An instantiation of the `f32::sqrt` parameter, faithful on every input
the closed theorems below evaluate it at (`sqrt 0 = 0`, `sqrt 1 = 1`,
`sqrt NaN = NaN`, `sqrt x = NaN` for `x < 0`); remaining inputs are mapped
to NaN. -/
def sqrtModel : F → F
  | F.nan => F.nan
  | F.inf => F.inf
  | F.ninf => F.nan
  | F.fin x =>
      if x < 0 then F.nan
      else if x = 0 then F.fin 0
      else if x = 1 then F.fin 1 else F.nan

/-- A child visited once (`n = 1`, `q = 0`). -/
def visitedChild : TreeNode Bool :=
  TreeNode.mk (some true) [] false false (F.fin 1) (F.fin 0)

/-- An unvisited child (`n = 0`, `q = 0`). -/
def unvisitedChild : TreeNode Bool :=
  TreeNode.mk (some false) [] false false (F.fin 0) (F.fin 0)

/-- A fully-expanded parent (`n = 1`) with one visited and one unvisited
child. -/
def mixedNode : TreeNode Bool :=
  TreeNode.mk none [visitedChild, unvisitedChild] false true (F.fin 1) (F.fin 0)

/-- C1 counterexample: on a fully-expanded node with an unvisited child
(`n = 0`) and a visited sibling (`n = 1`), `best_child` with `c = 1 > 0`
returns the visited child (index 0), not the unvisited one: the unvisited
child's UCT value is `0.0/0.0 + … = NaN`, and `NaN > best_value` is false,
so the supposed `+infinity` preference never happens. -/
theorem mixedNode_best_child :
    mixedNode.best_child lnModel sqrtModel (F.fin 1) = some 0 := by
  show (([visitedChild, unvisitedChild].foldl _ (F.ninf, none, 0)).2.1 :
    Option ℕ) = some 0
  rw [List.foldl_cons, List.foldl_cons, List.foldl_nil]
  norm_num [TreeNode.uctValue, visitedChild, unvisitedChild, mixedNode,
    lnModel, sqrtModel, F.div_def, F.add_def, F.mul_def, F.div, F.add,
    F.mul, F.ltB]

theorem claim_uct_prefers_unvisited_counterexample :
    mixedNode.fullyExpanded = true ∧
      (∃ ch ∈ mixedNode.children, ch.nStat = F.fin 0) ∧
      (∃ ch ∈ mixedNode.children, ch.nStat = F.fin 1) ∧
      mixedNode.best_child lnModel sqrtModel (F.fin 1) = some 0 ∧
      ∀ ch, mixedNode.children[0]? = some ch → ch.nStat = F.fin 1 := by
  refine ⟨rfl, ⟨unvisitedChild, by simp [mixedNode, unvisitedChild], rfl⟩,
    ⟨visitedChild, by simp [mixedNode, visitedChild], rfl⟩,
    mixedNode_best_child, ?_⟩
  intro ch hch
  simp only [mixedNode, TreeNode.children_mk] at hch
  rw [show ([visitedChild, unvisitedChild] : List (TreeNode Bool))[0]? =
      some visitedChild from rfl] at hch
  cases hch
  rfl

/-- The UCT value of an unvisited child (`n = 0`, `q = 0`) is NaN for
every exploration constant, parent count, and ln/sqrt behaviour: its
first summand is `0.0/0.0 = NaN` and NaN absorbs the addition. -/
theorem uctValue_nan_of_unvisited {A : Type} (fln fsqrt : F → F) (c pn : F)
    (ch : TreeNode A) (hn : ch.nStat = F.fin 0) (hq : ch.qStat = F.fin 0) :
    TreeNode.uctValue fln fsqrt c pn ch = F.nan := by
  unfold TreeNode.uctValue
  rw [hn, hq]
  simp

theorem best_child_aux {A : Type} (fln fsqrt : F → F) (c : F)
    (t : TreeNode A)
    (hq : ∀ ch ∈ t.children, ch.nStat = F.fin 0 → ch.qStat = F.fin 0) :
    ∀ (l : List (TreeNode A)) (idx : ℕ), t.children.drop idx = l →
      ∀ (bv : F) (bi : Option ℕ),
        (∀ j, bi = some j → ∀ ch, t.children[j]? = some ch →
          ch.nStat ≠ F.fin 0) →
        ∀ j, (l.foldl
            (fun (st : F × Option ℕ × ℕ) child =>
              let value := TreeNode.uctValue fln fsqrt c t.nStat child
              if F.ltB st.1 value then (value, some st.2.2, st.2.2 + 1)
              else (st.1, st.2.1, st.2.2 + 1)) (bv, bi, idx)).2.1 = some j →
          ∀ ch, t.children[j]? = some ch → ch.nStat ≠ F.fin 0 := by
  intro l
  induction l with
  | nil =>
      intro idx hdrop bv bi hinv j hres ch hch
      exact hinv j hres ch hch
  | cons hd tl ih =>
      intro idx hdrop bv bi hinv j hres ch hch
      have hhd : t.children[idx]? = some hd := by
        have := List.getElem?_drop t.children idx 0
        rw [hdrop] at this
        simpa using this.symm
      have htl : t.children.drop (idx + 1) = tl := by
        have h1 : t.children.drop (idx + 1) = (t.children.drop idx).drop 1 := by
          rw [List.drop_drop, Nat.add_comm]
        rw [h1, hdrop, List.drop_one, List.tail_cons]
      rw [List.foldl_cons] at hres
      by_cases hlt : F.ltB bv (TreeNode.uctValue fln fsqrt c t.nStat hd)
      · rw [if_pos hlt] at hres
        refine ih (idx + 1) htl _ (some idx) ?_ j hres ch hch
        intro j' hj' ch' hch' hn0
        cases hj'
        have hhd' : ch' = hd := by rw [hhd] at hch'; cases hch'; rfl
        subst hhd'
        have hmem : ch' ∈ t.children := List.getElem?_mem hch'
        have := uctValue_nan_of_unvisited fln fsqrt c t.nStat ch' hn0
          (hq ch' hmem hn0)
        rw [this] at hlt
        simp at hlt
      · rw [if_neg hlt] at hres
        exact ih (idx + 1) htl bv bi hinv j hres ch hch

/-- C1 amended: under the statistics invariant (`n == 0` implies
`q == 0`), `best_child` never returns an unvisited child, for every
exploration constant and every ln/sqrt behaviour: an unvisited child's
UCT value is NaN (`0.0/0.0`), and `value > best_value` is false for NaN,
so the child is skipped — the opposite of the claimed automatic-maximal
preference.  With an unvisited and a visited sibling both present, any
returned child is therefore a visited one. -/
theorem claim_uct_never_selects_unvisited {A : Type} (fln fsqrt : F → F)
    (c : F) (t : TreeNode A)
    (hq : ∀ ch ∈ t.children, ch.nStat = F.fin 0 → ch.qStat = F.fin 0)
    (i : ℕ) (hbc : t.best_child fln fsqrt c = some i)
    (ch : TreeNode A) (hch : t.children[i]? = some ch) :
    ch.nStat ≠ F.fin 0 := by
  unfold TreeNode.best_child at hbc
  exact best_child_aux fln fsqrt c t hq t.children 0 rfl F.ninf none
    (fun j hj => by cases hj) i hbc ch hch

theorem claim_uct_never_selects_unvisited_witness :
    visitedChild.nStat ≠ F.fin 0 :=
  claim_uct_never_selects_unvisited lnModel sqrtModel (F.fin 1)
    mixedNode
    (by
      intro c hc hn
      simp only [mixedNode, TreeNode.children_mk, List.mem_cons,
        List.mem_singleton, List.not_mem_nil, or_false] at hc
      rcases hc with hc | hc <;> subst hc <;> rfl)
    0 mixedNode_best_child visitedChild rfl

/-- A stateless two-action game: both actions stay legal forever. -/
def twoActionGame : GameM Unit Bool :=
  ⟨fun _ => [false, true], fun s _ => s, fun _ => F.fin 0⟩

/-- The node produced by one `expand` of a fresh root under
`twoActionGame` with first random draw `0`. -/
def expandedOnce : TreeNode Bool :=
  TreeNode.mk none [TreeNode.new (some false)] false false (F.fin 0) (F.fin 0)

/-- C7 counterexample: expanding a fresh node of a game with two legal
actions leaves exactly one untried action remaining after the expansion,
yet the node is NOT marked fully expanded — the code sets the flag when
`candidate_actions.len() == 1` before pushing, i.e. when zero untried
actions remain afterwards. -/
theorem claim_expand_flag_counterexample :
    (TreeNode.new none).expand twoActionGame () [0] =
        some (expandedOnce, some 0, []) ∧
      ((twoActionGame.allowed_actions ()).filter
          (fun a => (some a) ∉ expandedOnce.children.map TreeNode.action)).length
        = 1 ∧
      expandedOnce.fullyExpanded = false := by
  refine ⟨?_, rfl, rfl⟩
  rfl

/-- C7 amended: for a node with untracked flag (`fully_expanded = false`)
and a non-terminal state, a successful `expand` sets `fully_expanded`
exactly when ONE untried action remained before this expansion —
equivalently (for duplicate-free action lists) exactly when ZERO untried
actions remain after it — not when one remains afterwards. -/
theorem claim_expand_flag_amended {S A : Type} [DecidableEq A]
    (g : GameM S A) (t : TreeNode A) (s : S) (rng : Rng) (as : List A)
    (hmap : t.children.mapM TreeNode.action = some as)
    (hflag : t.fullyExpanded = false)
    (hne : g.allowed_actions s ≠ [])
    (t1 : TreeNode A) (oj : Option ℕ) (rng' : Rng)
    (hex : t.expand g s rng = some (t1, oj, rng')) :
    t1.fullyExpanded = true ↔
      ((g.allowed_actions s).filter (fun a => a ∉ as)).length = 1 := by
  unfold TreeNode.expand at hex
  rw [if_neg (by simpa using hne), hmap] at hex
  dsimp only at hex
  set cand := (g.allowed_actions s).filter (fun a => ¬ a ∈ as) with hcand
  by_cases hc : cand = []
  · rw [hc] at hex
    simp at hex
  · obtain ⟨p, hp⟩ := Option.isSome_iff_exists.1 (choose_random_isSome hc rng)
    obtain ⟨a, rng''⟩ := p
    rw [hp] at hex
    simp only [Option.some.injEq, Prod.mk.injEq] at hex
    obtain ⟨ht1, -, -⟩ := hex
    subst ht1
    simp only [TreeNode.fullyExpanded_mk]
    constructor
    · intro h
      by_contra hlen
      rw [if_neg hlen, hflag] at h
      exact Bool.false_ne_true h
    · intro h
      rw [if_pos h]

theorem claim_expand_flag_amended_witness :
    expandedOnce.fullyExpanded = true ↔
      ((twoActionGame.allowed_actions ()).filter
        (fun a => a ∉ ([] : List Bool))).length = 1 :=
  claim_expand_flag_amended twoActionGame (TreeNode.new none) () [0] []
    rfl rfl (by simp [twoActionGame]) expandedOnce (some 0) [] rfl

/-- The per-node statistics invariant of the spec: `n ≥ 0` (in the IEEE
order, which also rules NaN out) and `n == 0` implies `q == 0`. -/
def statsInv {A : Type} (t : TreeNode A) : Prop :=
  F.leB (F.fin 0) t.nStat = true ∧ (t.nStat = F.fin 0 → t.qStat = F.fin 0)

/-- The statistics invariant, required of every node of the tree. -/
def treeInv {A : Type} : TreeNode A → Prop
  | t => statsInv t ∧ ∀ c ∈ t.children, treeInv c
  termination_by t => sizeOf t
  decreasing_by
    exact TreeNode.sizeOf_lt_of_mem_children (by assumption)

theorem treeInv_def {A : Type} (t : TreeNode A) :
    treeInv t ↔ statsInv t ∧ ∀ c ∈ t.children, treeInv c := by
  rw [treeInv]

/-- Incrementing `n` by `1.0` preserves `0 ≤ n` and forces `n ≠ 0`, so the
statistics update `n += 1; q += delta` preserves `statsInv` regardless of
the reward added. -/
theorem statsInv_bump {A : Type} (t : TreeNode A) (h : statsInv t)
    (a : Option A) (c : List (TreeNode A)) (ts fe : Bool) (delta : F) :
    statsInv (TreeNode.mk a c ts fe (t.nStat + F.fin 1) (t.qStat + delta)) := by
  obtain ⟨h1, -⟩ := h
  unfold statsInv
  simp only [TreeNode.nStat_mk, TreeNode.qStat_mk]
  cases hn : t.nStat with
  | nan => rw [hn] at h1; exact absurd h1 (by simp [F.leB])
  | ninf => rw [hn] at h1; exact absurd h1 (by simp [F.leB])
  | inf =>
      refine ⟨rfl, fun hx => ?_⟩
      rw [show F.inf + F.fin 1 = F.inf from rfl] at hx
      cases hx
  | fin x =>
      rw [hn] at h1
      have hx : 0 ≤ x := by
        have := of_decide_eq_true (by simpa [F.leB] using h1)
        exact this
      refine ⟨?_, fun hcon => ?_⟩
      · rw [F.fin_add_fin]
        simp only [F.leB, decide_eq_true_iff]
        linarith
      · rw [F.fin_add_fin] at hcon
        have : x + 1 = 0 := by
          have := F.fin.inj hcon
          exact this
        linarith

theorem treeInv_new {A : Type} (a : Option A) : treeInv (TreeNode.new a) := by
  rw [treeInv_def]
  exact ⟨⟨rfl, fun _ => rfl⟩, by intro c hc; simp [TreeNode.new] at hc⟩

theorem treeInv_expand {S A : Type} [DecidableEq A] (g : GameM S A)
    (t : TreeNode A) (s : S) (rng : Rng)
    (hinv : treeInv t) (t1 : TreeNode A) (oj : Option ℕ) (rng' : Rng)
    (hex : t.expand g s rng = some (t1, oj, rng')) :
    treeInv t1 := by
  obtain ⟨hstats, hch⟩ := (treeInv_def t).1 hinv
  unfold TreeNode.expand at hex
  by_cases hlen : (g.allowed_actions s).length = 0
  · rw [if_pos hlen] at hex
    simp only [Option.some.injEq, Prod.mk.injEq] at hex
    obtain ⟨ht1, -, -⟩ := hex
    subst ht1
    rw [treeInv_def]
    exact ⟨hstats, hch⟩
  · rw [if_neg hlen] at hex
    cases hmap : t.children.mapM TreeNode.action with
    | none => rw [hmap] at hex; cases hex
    | some as =>
        rw [hmap] at hex
        dsimp only at hex
        cases hcr : choose_random
            ((g.allowed_actions s).filter (fun a => ¬ a ∈ as)) rng with
        | none => rw [hcr] at hex; cases hex
        | some p =>
            obtain ⟨a, rng''⟩ := p
            rw [hcr] at hex
            simp only [Option.some.injEq, Prod.mk.injEq] at hex
            obtain ⟨ht1, -, -⟩ := hex
            subst ht1
            rw [treeInv_def]
            refine ⟨hstats, ?_⟩
            intro c hc
            simp only [TreeNode.children_mk, List.mem_append,
              List.mem_singleton] at hc
            rcases hc with hmem | hmem
            · exact hch c hmem
            · subst hmem
              exact treeInv_new _

theorem treeInv_set_bump {A : Type} (t : TreeNode A) (hstats : statsInv t)
    (hch : ∀ c ∈ t.children, treeInv c) (i : ℕ) (child' : TreeNode A)
    (hchild' : treeInv child') (delta : F) (a : Option A) (ts fe : Bool) :
    treeInv (TreeNode.mk a (t.children.set i child') ts fe
      (t.nStat + F.fin 1) (t.qStat + delta)) := by
  rw [treeInv_def]
  constructor
  · exact statsInv_bump t ⟨hstats.1, hstats.2⟩ a _ ts fe delta
  · intro x hx
    simp only [TreeNode.children_mk] at hx
    rcases List.mem_or_eq_of_mem_set hx with hmem | heq
    · exact hch x hmem
    · subst heq; exact hchild'

theorem treeInv_iteration_aux {S A : Type} [DecidableEq A] (g : GameM S A)
    (fln fsqrt : F → F) (c : F) (pf : ℕ) :
    ∀ (n : ℕ) (t : TreeNode A), sizeOf t ≤ n →
      ∀ (s : S) (rng : Rng) (out : TreeNode A × F × Rng),
        treeInv t → TreeNode.iteration g fln fsqrt c pf t s rng = some out →
        treeInv out.1 := by
  intro n
  induction n with
  | zero =>
      intro t ht
      exfalso
      cases t with
      | mk a ch ts fe nn qq =>
          simp only [TreeNode.mk.sizeOf_spec] at ht
          omega
  | succ n ih =>
      intro t ht s rng out hinv hit
      obtain ⟨hstats, hch⟩ := (treeInv_def t).1 hinv
      rw [TreeNode.iteration] at hit
      by_cases hterm : t.terminal_state
      · rw [if_pos hterm] at hit
        simp only [Option.some.injEq] at hit
        subst hit
        rw [treeInv_def]
        exact ⟨statsInv_bump t hstats _ _ _ _ _,
          fun x hx => hch x (by simpa using hx)⟩
      · rw [if_neg hterm] at hit
        by_cases hfe : t.fullyExpanded
        · rw [if_pos hfe] at hit
          cases hbc : t.best_child fln fsqrt c with
          | none => rw [hbc] at hit; cases hit
          | some i =>
              rw [hbc] at hit
              dsimp only at hit
              cases hci : t.children[i]? with
              | none => rw [hci] at hit; cases hit
              | some child =>
                  rw [hci] at hit
                  dsimp only at hit
                  cases hact : child.action with
                  | none => rw [hact] at hit; cases hit
                  | some a =>
                      rw [hact] at hit
                      dsimp only at hit
                      cases hrec : TreeNode.iteration g fln fsqrt c pf child
                          (g.make_move s a) rng with
                      | none => rw [hrec] at hit; cases hit
                      | some res =>
                          obtain ⟨child', delta, rng'⟩ := res
                          rw [hrec] at hit
                          dsimp only at hit
                          simp only [Option.some.injEq] at hit
                          subst hit
                          have hmem : child ∈ t.children := List.getElem?_mem hci
                          have hsz : sizeOf child ≤ n :=
                            Nat.le_of_lt_succ
                              (Nat.lt_of_lt_of_le
                                (TreeNode.sizeOf_lt_of_mem_children hmem) ht)
                          have hchild' : treeInv child' :=
                            ih child hsz (g.make_move s a) rng
                              (child', delta, rng') (hch child hmem) hrec
                          exact treeInv_set_bump t hstats hch i child' hchild'
                            delta _ _ _
        · rw [if_neg hfe] at hit
          cases hex : t.expand g s rng with
          | none => rw [hex] at hit; cases hit
          | some res =>
              obtain ⟨t1, oj, rng'⟩ := res
              rw [hex] at hit
              dsimp only at hit
              have ht1 : treeInv t1 := treeInv_expand g t s rng hinv t1 oj rng' hex
              obtain ⟨ht1s, ht1c⟩ := (treeInv_def t1).1 ht1
              cases oj with
              | none =>
                  dsimp only at hit
                  simp only [Option.some.injEq] at hit
                  subst hit
                  rw [treeInv_def]
                  exact ⟨statsInv_bump t1 ht1s _ _ _ _ _,
                    fun x hx => ht1c x (by simpa using hx)⟩
              | some j =>
                  dsimp only at hit
                  cases hcj : t1.children[j]? with
                  | none => rw [hcj] at hit; cases hit
                  | some child =>
                      rw [hcj] at hit
                      dsimp only at hit
                      cases hact : child.action with
                      | none => rw [hact] at hit; cases hit
                      | some a =>
                          rw [hact] at hit
                          dsimp only at hit
                          cases hpo : g.playout pf (g.make_move s a) rng' with
                          | mk s2 rng2 =>
                              rw [hpo] at hit
                              dsimp only at hit
                              simp only [Option.some.injEq] at hit
                              subst hit
                              have hmem : child ∈ t1.children :=
                                List.getElem?_mem hcj
                              have hchinv : treeInv child := ht1c child hmem
                              obtain ⟨hcs, hcc⟩ := (treeInv_def child).1 hchinv
                              have hchild' : treeInv (TreeNode.mk (some a)
                                  child.children child.terminal_state
                                  child.fullyExpanded (child.nStat + F.fin 1)
                                  (child.qStat + g.reward s2)) := by
                                rw [treeInv_def]
                                exact ⟨statsInv_bump child hcs _ _ _ _ _,
                                  fun x hx => hcc x (by simpa using hx)⟩
                              exact treeInv_set_bump t1 ht1s ht1c j _ hchild' _ _ _ _

theorem length_filter_add_length_filter_not {A : Type} (l : List A)
    (p : A → Prop) [DecidablePred p] :
    (l.filter (fun a => p a)).length + (l.filter (fun a => ¬ p a)).length
      = l.length := by
  induction l with
  | nil => rfl
  | cons x xs ih =>
      simp only [decide_not] at ih ⊢
      by_cases hx : p x <;> simp [List.filter_cons, hx] <;> omega

theorem filter_not_mem_length {A : Type} [DecidableEq A]
    (allowed as : List A) (hnd : allowed.Nodup) (h2 : as.Nodup)
    (h3 : ∀ x ∈ as, x ∈ allowed) :
    (allowed.filter (fun a => ¬ a ∈ as)).length
      = allowed.length - as.length := by
  have hperm : (allowed.filter (fun a => a ∈ as)).Perm as := by
    refine (List.perm_ext_iff_of_nodup (List.Nodup.filter _ hnd) h2).2 ?_
    intro x
    simp only [List.mem_filter, decide_eq_true_iff]
    exact ⟨fun hx => hx.2, fun hx => ⟨h3 x hx, hx⟩⟩
  have hlen1 := hperm.length_eq
  have hsplit := length_filter_add_length_filter_not allowed (fun a => a ∈ as)
  omega

theorem map_some_mapM {A B : Type} :
    ∀ (l : List A) (f : A → Option B) (as : List B),
      l.map f = as.map some → l.mapM f = some as := by
  intro l
  induction l with
  | nil =>
      intro f as h
      cases as with
      | nil => rfl
      | cons a as' => simp at h
  | cons x xs ih =>
      intro f as h
      cases as with
      | nil => simp at h
      | cons a as' =>
          simp only [List.map_cons, List.cons.injEq] at h
          obtain ⟨h1, h2⟩ := h
          rw [List.mapM_cons, h1, ih f as' h2]
          rfl

theorem set_append_singleton {A : Type} :
    ∀ (l : List A) (b c : A), (l ++ [b]).set l.length c = l ++ [c] := by
  intro l
  induction l with
  | nil => intro b c; rfl
  | cons x xs ih =>
      intro b c
      show x :: ((xs ++ [b]).set xs.length c) = x :: (xs ++ [c])
      rw [ih]

theorem getElem?_append_length {A : Type} (l : List A) (b : A) :
    (l ++ [b])[l.length]? = some b := by
  rw [List.getElem?_append_right (Nat.le_refl _)]
  simp

theorem fin_nat_succ (j : ℕ) :
    F.fin (j : ℚ) + F.fin 1 = F.fin ((j + 1 : ℕ) : ℚ) := by
  rw [F.fin_add_fin]
  norm_num

theorem TreeNode.action_new {A : Type} (o : Option A) :
    (TreeNode.new o).action = o := rfl

theorem iteration_fresh_step {S A : Type} [DecidableEq A] (g : GameM S A)
    (fln fsqrt : F → F) (c : F) (pf : ℕ) (s : S) (m : ℕ)
    (hnd : (g.allowed_actions s).Nodup)
    (hm : (g.allowed_actions s).length = m)
    (t : TreeNode A) (as : List A) (j : ℕ) (hj : j < m)
    (h1 : t.children.map TreeNode.action = as.map some)
    (h2 : as.Nodup) (h3 : ∀ x ∈ as, x ∈ g.allowed_actions s)
    (h4 : as.length = j) (h5 : t.terminal_state = false)
    (h6 : t.fullyExpanded = false) (h7 : t.nStat = F.fin (j : ℚ))
    (rng : Rng) :
    ∃ t' delta rng' a,
      TreeNode.iteration g fln fsqrt c pf t s rng = some (t', delta, rng') ∧
      t'.children.map TreeNode.action = (as ++ [a]).map some ∧
      (as ++ [a]).Nodup ∧ (∀ x ∈ as ++ [a], x ∈ g.allowed_actions s) ∧
      (as ++ [a]).length = j + 1 ∧
      t'.terminal_state = false ∧
      t'.fullyExpanded = decide (j + 1 = m) ∧
      t'.nStat = F.fin ((j + 1 : ℕ) : ℚ) := by
  have hclen : ((g.allowed_actions s).filter (fun x => ¬ x ∈ as)).length
      = m - j := by
    rw [filter_not_mem_length (g.allowed_actions s) as hnd h2 h3, hm, h4]
  have hcne : (g.allowed_actions s).filter (fun x => ¬ x ∈ as) ≠ [] := by
    intro hc
    rw [hc] at hclen
    simp only [List.length_nil] at hclen
    omega
  obtain ⟨p, hcr⟩ := Option.isSome_iff_exists.1 (choose_random_isSome hcne rng)
  obtain ⟨a, rng2⟩ := p
  have hamem : a ∈ (g.allowed_actions s).filter (fun x => ¬ x ∈ as) :=
    choose_random_mem hcr
  have hanotin : a ∉ as := by
    have := (List.mem_filter.1 hamem).2
    simpa using this
  have haallow : a ∈ g.allowed_actions s := (List.mem_filter.1 hamem).1
  have hlen_ne : ¬ (g.allowed_actions s).length = 0 := by omega
  have hchlen : t.children.length = j := by
    have := congrArg List.length h1
    simpa [h4] using this
  have hex : t.expand g s rng =
      some (TreeNode.mk t.action (t.children ++ [TreeNode.new (some a)])
        t.terminal_state
        (if ((g.allowed_actions s).filter (fun x => ¬ x ∈ as)).length = 1
          then true else t.fullyExpanded)
        t.nStat t.qStat, some t.children.length, rng2) := by
    unfold TreeNode.expand
    rw [if_neg hlen_ne, map_some_mapM t.children TreeNode.action as h1]
    dsimp only
    rw [hcr]
  rcases hpo : g.playout pf (g.make_move s a) rng2 with ⟨s2, rng3⟩
  have hit : TreeNode.iteration g fln fsqrt c pf t s rng =
      some (TreeNode.mk t.action
        ((t.children ++ [TreeNode.new (some a)]).set t.children.length
          (TreeNode.mk (some a) [] false false (F.fin 0 + F.fin 1)
            (F.fin 0 + g.reward s2)))
        t.terminal_state
        (if ((g.allowed_actions s).filter (fun x => ¬ x ∈ as)).length = 1
          then true else t.fullyExpanded)
        (t.nStat + F.fin 1) (t.qStat + g.reward s2),
        g.reward s2, rng3) := by
    rw [TreeNode.iteration, if_neg (by simp [h5]), if_neg (by simp [h6]), hex]
    dsimp only
    simp only [TreeNode.children_mk, TreeNode.action_mk, TreeNode.terminal_mk,
      TreeNode.fullyExpanded_mk, TreeNode.nStat_mk, TreeNode.qStat_mk]
    rw [getElem?_append_length]
    dsimp only [TreeNode.new, TreeNode.action_mk, TreeNode.children_mk,
      TreeNode.terminal_mk, TreeNode.fullyExpanded_mk, TreeNode.nStat_mk,
      TreeNode.qStat_mk]
    rw [hpo]
  refine ⟨_, _, _, a, hit, ?_, ?_, ?_, ?_, ?_, ?_, ?_⟩
  · simp only [TreeNode.children_mk]
    rw [List.map_set]
    simp only [TreeNode.action_mk, List.map_append, h1, List.map_cons,
      List.map_nil, TreeNode.action_new]
    have hlenmap : (as.map some).length = t.children.length := by
      simp [hchlen, h4]
    rw [← hlenmap, set_append_singleton]
  · rw [List.nodup_append]
    exact ⟨h2, List.nodup_singleton a,
      fun x hx hxa => hanotin ((List.mem_singleton.1 hxa) ▸ hx)⟩
  · intro x hx
    rcases List.mem_append.1 hx with hx | hx
    · exact h3 x hx
    · rw [List.mem_singleton.1 hx]
      exact haallow
  · simp [h4]
  · simp [h5]
  · simp only [TreeNode.fullyExpanded_mk]
    rw [h6, hclen]
    by_cases hone : m - j = 1
    · rw [if_pos hone]
      have hjm : j + 1 = m := by omega
      simp [hjm]
    · rw [if_neg hone]
      have hjm : ¬ (j + 1 = m) := by omega
      simp [hjm]
  · simp only [TreeNode.nStat_mk]
    rw [h7, fin_nat_succ]

theorem iterate_fresh {S A : Type} [DecidableEq A] (g : GameM S A)
    (fln fsqrt : F → F) (c : F) (pf : ℕ) (s : S) (m : ℕ)
    (hnd : (g.allowed_actions s).Nodup)
    (hm : (g.allowed_actions s).length = m) :
    ∀ (k j : ℕ), j + k ≤ m →
      ∀ (t : TreeNode A) (as : List A),
        t.children.map TreeNode.action = as.map some →
        as.Nodup → (∀ x ∈ as, x ∈ g.allowed_actions s) →
        as.length = j → t.terminal_state = false →
        t.fullyExpanded = decide (0 < j ∧ j = m) →
        t.nStat = F.fin (j : ℚ) →
        ∀ rng, ∃ (t' : TreeNode A) (rng' : Rng) (as' : List A),
          TreeNode.iterate g fln fsqrt c pf k t s rng = some (t', rng') ∧
          t'.children.map TreeNode.action = as'.map some ∧
          as'.length = j + k ∧
          t'.terminal_state = false ∧
          t'.fullyExpanded = decide (0 < j + k ∧ j + k = m) ∧
          t'.nStat = F.fin ((j + k : ℕ) : ℚ) := by
  intro k
  induction k with
  | zero =>
      intro j hjm t as h1 h2 h3 h4 h5 h6 h7 rng
      refine ⟨t, rng, as, rfl, h1, ?_, h5, ?_, ?_⟩
      · omega
      · simpa using h6
      · simpa using h7
  | succ k ih =>
      intro j hjm t as h1 h2 h3 h4 h5 h6 h7 rng
      have hj : j < m := by omega
      have h6' : t.fullyExpanded = false := by
        rw [h6]
        simp only [decide_eq_false_iff_not]
        intro hcon
        omega
      obtain ⟨t1, delta, rng1, a, hit, k1, k2, k3, k4, k5, k6, k7⟩ :=
        iteration_fresh_step g fln fsqrt c pf s m hnd hm t as j hj
          h1 h2 h3 h4 h5 h6' h7 rng
      have k6' : t1.fullyExpanded = decide (0 < j + 1 ∧ j + 1 = m) := by
        rw [k6]
        simp [Nat.succ_pos]
      obtain ⟨t', rng', as', hh1, hh2, hh3, hh4, hh5, hh6⟩ :=
        ih (j + 1) (by omega) t1 (as ++ [a]) k1 k2 k3 k4 k5 k6' k7 rng1
      refine ⟨t', rng', as', ?_, hh2, by omega, hh4, ?_, ?_⟩
      · show TreeNode.iterate g fln fsqrt c pf (k + 1) t s rng = some (t', rng')
        rw [TreeNode.iterate, hit]
        exact hh1
      · rw [hh5]
        have : j + 1 + k = j + (k + 1) := by omega
        rw [this]
      · rw [hh6]
        have : j + 1 + k = j + (k + 1) := by omega
        rw [this]

/-- C3: after exactly `k` calls of `iteration` on a freshly built tree
(the loop of `MCTS::search`, each call on a fresh clone of the root state)
whose root state is non-terminal and offers `m ≥ k` distinct legal
first-ply actions, the root has exactly `min(k, m) = k` children and its
visit count `n` equals `k`. -/
theorem claim_iteration_counts {S A : Type} [DecidableEq A] (g : GameM S A)
    (fln fsqrt : F → F) (c : F) (pf : ℕ) (s : S) (k m : ℕ)
    (hnd : (g.allowed_actions s).Nodup)
    (hm : (g.allowed_actions s).length = m)
    (hkm : k ≤ m) (rng : Rng) :
    ∃ t' rng',
      TreeNode.iterate g fln fsqrt c pf k (TreeNode.new none) s rng
        = some (t', rng') ∧
      t'.children.length = min k m ∧
      t'.nStat = F.fin (k : ℚ) := by
  obtain ⟨t', rng', as', hiter, hmap, hlen, -, -, hn⟩ :=
    iterate_fresh g fln fsqrt c pf s m hnd hm k 0 (by omega)
      (TreeNode.new none) [] rfl List.nodup_nil (by simp) rfl rfl
      (by rfl) (by norm_num [TreeNode.new]) rng
  refine ⟨t', rng', hiter, ?_, by simpa using hn⟩
  have hcl := congrArg List.length hmap
  simp only [List.length_map] at hcl
  rw [hcl, hlen]
  omega

theorem claim_iteration_counts_witness :
    ∃ t' rng',
      TreeNode.iterate twoActionGame lnModel sqrtModel (F.fin 1) 0 2
        (TreeNode.new none) () [] = some (t', rng') ∧
      t'.children.length = min 2 2 ∧
      t'.nStat = F.fin ((2 : ℕ) : ℚ) :=
  claim_iteration_counts twoActionGame lnModel sqrtModel (F.fin 1) 0 () 2 2
    (by decide) rfl (Nat.le_refl 2) []

/-- C8: the statistics invariant `n ≥ 0` and `n == 0 ⇒ q == 0` holds for
every node after node creation and is preserved, for every node of the
tree, by `expand` and by `iteration` (whatever reward values the game
supplies); `best_child` returns an index and modifies nothing, so it
preserves the invariant trivially. -/
theorem claim_stats_invariant (S A : Type) [DecidableEq A] :
    (∀ a : Option A, treeInv (TreeNode.new a)) ∧
      (∀ (g : GameM S A) (t : TreeNode A) (s : S) (rng : Rng)
          (out : TreeNode A × Option ℕ × Rng),
        treeInv t → t.expand g s rng = some out → treeInv out.1) ∧
      (∀ (g : GameM S A) (fln fsqrt : F → F) (c : F) (pf : ℕ)
          (t : TreeNode A) (s : S) (rng : Rng) (out : TreeNode A × F × Rng),
        treeInv t → TreeNode.iteration g fln fsqrt c pf t s rng = some out →
        treeInv out.1) := by
  refine ⟨treeInv_new, ?_, ?_⟩
  · intro g t s rng out hinv hex
    obtain ⟨t1, oj, rng'⟩ := out
    exact treeInv_expand g t s rng hinv t1 oj rng' hex
  · intro g fln fsqrt c pf t s rng out hinv hit
    exact treeInv_iteration_aux g fln fsqrt c pf (sizeOf t) t (Nat.le_refl _)
      s rng out hinv hit

theorem claim_stats_invariant_witness : treeInv expandedOnce :=
  (claim_stats_invariant Unit Bool).2.1 twoActionGame (TreeNode.new none)
    () [0] (expandedOnce, some 0, []) (treeInv_new none) rfl

theorem best_child_nil {A : Type} (fln fsqrt : F → F) (c : F)
    (t : TreeNode A) (h : t.children = []) :
    t.best_child fln fsqrt c = none := by
  unfold TreeNode.best_child
  rw [h]
  rfl

theorem bestActions_nil {A : Type} (fln fsqrt : F → F) (t : TreeNode A)
    (h : t.children = []) : TreeNode.bestActions fln fsqrt t = some [] := by
  rw [TreeNode.bestActions, best_child_nil fln fsqrt (F.fin 0) t h]

theorem iteration_terminal_keeps {S A : Type} [DecidableEq A]
    (g : GameM S A) (fln fsqrt : F → F) (c : F) (pf : ℕ)
    (t : TreeNode A) (s : S) (rng : Rng) (hterm : t.terminal_state = true) :
    TreeNode.iteration g fln fsqrt c pf t s rng =
      some (TreeNode.mk t.action t.children t.terminal_state t.fullyExpanded
        (t.nStat + F.fin 1) (t.qStat + g.reward s), g.reward s, rng) := by
  rw [TreeNode.iteration, if_pos hterm]

theorem iterate_terminal_childless {S A : Type} [DecidableEq A]
    (g : GameM S A) (fln fsqrt : F → F) (c : F) (pf : ℕ) (s : S) :
    ∀ (k : ℕ) (t : TreeNode A) (rng : Rng),
      t.children = [] → t.terminal_state = true →
      ∃ t' rng', TreeNode.iterate g fln fsqrt c pf k t s rng
          = some (t', rng') ∧ t'.children = [] := by
  intro k
  induction k with
  | zero => intro t rng hch hterm; exact ⟨t, rng, rfl, hch⟩
  | succ k ih =>
      intro t rng hch hterm
      obtain ⟨t', rng', hiter, hch'⟩ :=
        ih (TreeNode.mk t.action t.children t.terminal_state t.fullyExpanded
          (t.nStat + F.fin 1) (t.qStat + g.reward s)) rng
          (by simpa using hch) (by simpa using hterm)
      refine ⟨t', rng', ?_, hch'⟩
      rw [TreeNode.iterate, iteration_terminal_keeps g fln fsqrt c pf t s rng hterm]
      exact hiter

theorem iteration_fresh_terminal {S A : Type} [DecidableEq A]
    (g : GameM S A) (fln fsqrt : F → F) (c : F) (pf : ℕ) (s : S)
    (hallow : g.allowed_actions s = []) (rng : Rng) :
    TreeNode.iteration g fln fsqrt c pf (TreeNode.new none) s rng =
      some (TreeNode.mk none [] true true (F.fin 0 + F.fin 1)
        (F.fin 0 + g.reward s), g.reward s, rng) := by
  rw [TreeNode.iteration,
    if_neg (show ¬ (TreeNode.new (none : Option A)).terminal_state = true
      from fun h => Bool.false_ne_true h),
    if_neg (show ¬ (TreeNode.new (none : Option A)).fullyExpanded = true
      from fun h => Bool.false_ne_true h)]
  have hex : (TreeNode.new none).expand g s rng =
      some (TreeNode.mk (none : Option A) [] true true (F.fin 0) (F.fin 0),
        none, rng) := by
    unfold TreeNode.expand
    rw [if_pos (by rw [hallow]; rfl)]
    rfl
  rw [hex]
  rfl

/-- C9: best-action extraction walks from the root via `best_child` with
exploration constant `0`, collecting each chosen child's action until a
node without children is reached; on a childless node the walk returns the
empty action list, so `search` returns the empty list both with zero
iterations on a fresh tree and with any number of iterations on a
terminal root — "no recommendation available". -/
theorem claim_search_walk_empty {S A : Type} [DecidableEq A]
    (g : GameM S A) (fln fsqrt : F → F) :
    (∀ t : TreeNode A, t.children = [] →
        TreeNode.bestActions fln fsqrt t = some []) ∧
      (∀ (root : TreeNode A) (s : S) (c : F) (pf : ℕ) (rng : Rng),
        root.children = [] →
        TreeNode.search g fln fsqrt root s 0 c pf rng = some ([], root, rng)) ∧
      (∀ (s : S) (c : F) (pf : ℕ) (rng : Rng) (k : ℕ),
        g.allowed_actions s = [] →
        ∃ (t' : TreeNode A) (rng' : Rng),
          TreeNode.search g fln fsqrt (TreeNode.new none) s k c pf rng
            = some ([], t', rng')) := by
  refine ⟨fun t ht => bestActions_nil fln fsqrt t ht, ?_, ?_⟩
  · intro root s c pf rng hch
    unfold TreeNode.search
    dsimp only [TreeNode.iterate]
    rw [bestActions_nil fln fsqrt root hch]
  · intro s c pf rng k hallow
    cases k with
    | zero =>
        refine ⟨TreeNode.new none, rng, ?_⟩
        unfold TreeNode.search
        dsimp only [TreeNode.iterate]
        rw [bestActions_nil fln fsqrt (TreeNode.new none) rfl]
    | succ k =>
        obtain ⟨t', rng', hiter, hch'⟩ :=
          iterate_terminal_childless g fln fsqrt c pf s k
            (TreeNode.mk none [] true true (F.fin 0 + F.fin 1)
              (F.fin 0 + g.reward s)) rng rfl rfl
        refine ⟨t', rng', ?_⟩
        unfold TreeNode.search
        rw [TreeNode.iterate,
          iteration_fresh_terminal g fln fsqrt c pf s hallow rng]
        dsimp only
        rw [hiter]
        dsimp only
        rw [bestActions_nil fln fsqrt t' hch']

theorem claim_search_walk_empty_witness :
    TreeNode.search unitGame lnModel sqrtModel (TreeNode.new none) () 0
      (F.fin 0) 0 [] = some ([], TreeNode.new none, []) :=
  (claim_search_walk_empty unitGame lnModel sqrtModel).2.1
    (TreeNode.new none) () (F.fin 0) 0 [] rfl

namespace TFE

theorem idx_lt : ∀ (a : Action), ∀ o < 4, ∀ i < 4, idx a o i < 16 := by
  intro a
  cases a <;> decide

theorem idx_pos_list (a : Action) :
    ∀ o < 4, ∀ i < 4,
      ((List.range 4).flatMap (fun o => (List.range 4).map (idx a o)))[o * 4 + i]?
        = some (idx a o i) := by
  cases a <;> decide

theorem idx_list_nodup (a : Action) :
    ((List.range 4).flatMap (fun o => (List.range 4).map (idx a o))).Nodup := by
  cases a <;> decide

theorem idx_list_length (a : Action) :
    ((List.range 4).flatMap (fun o => (List.range 4).map (idx a o))).length
      = 16 := by
  cases a <;> decide

theorem idx_ne (a : Action) :
    ∀ o < 4, ∀ i < 4, ∀ o' < 4, ∀ i' < 4,
      ¬ (o = o' ∧ i = i') → idx a o i ≠ idx a o' i' := by
  intro o ho i hi o' ho' i' hi' hne heq
  have h1 := idx_pos_list a o ho i hi
  have h2 := idx_pos_list a o' ho' i' hi'
  rw [heq, ← h2] at h1
  have hlen : o * 4 + i <
      ((List.range 4).flatMap (fun o => (List.range 4).map (idx a o))).length := by
    rw [idx_list_length]
    omega
  have hpos := List.getElem?_inj hlen (idx_list_nodup a) h1
  exact hne (by omega)

theorem laneWrite_length (a : Action) (o : ℕ) (v b : Board) :
    (laneWrite a o v b).length = b.length := by
  unfold laneWrite
  rw [show List.range 4 = [0, 1, 2, 3] from rfl]
  simp only [List.foldl_cons, List.foldl_nil, List.length_set]

theorem laneWrite_getD_last (a : Action) (o : ℕ) (v b : Board)
    (hb : b.length = 16) (ho : o < 4) :
    (laneWrite a o v b).getD (idx a o 3) 0 = v.getD 3 0 := by
  unfold laneWrite
  rw [show List.range 4 = [0, 1, 2, 3] from rfl]
  simp only [List.foldl_cons, List.foldl_nil]
  have hlen : (((b.set (idx a o 0) (v.getD 0 0)).set (idx a o 1)
      (v.getD 1 0)).set (idx a o 2) (v.getD 2 0)).length = 16 := by
    simp [hb]
  rw [List.getD_eq_getElem?_getD,
    List.getElem?_set_self (by rw [hlen]; exact idx_lt a o ho 3 (by omega))]
  rfl

theorem laneWrite_getD_other (a : Action) (o : ℕ) (v b : Board) (j : ℕ)
    (hne : ∀ i < 4, idx a o i ≠ j) :
    (laneWrite a o v b).getD j 0 = b.getD j 0 := by
  unfold laneWrite
  rw [show List.range 4 = [0, 1, 2, 3] from rfl]
  simp only [List.foldl_cons, List.foldl_nil]
  rw [List.getD_eq_getElem?_getD,
    List.getElem?_set_ne (hne 3 (by omega)),
    List.getElem?_set_ne (hne 2 (by omega)),
    List.getElem?_set_ne (hne 1 (by omega)),
    List.getElem?_set_ne (hne 0 (by omega)),
    ← List.getD_eq_getElem?_getD]

theorem outerFold_length (b : Board) (a : Action) :
    ∀ (l : List ℕ) (st : Board × ℕ × Bool), st.1.length = 16 →
      ((l.foldl (outerStep b a) st).1).length = 16 := by
  intro l
  induction l with
  | nil => intro st h; exact h
  | cons x xs ih =>
      intro st h
      rw [List.foldl_cons]
      exact ih _ (by rw [outerStep, laneWrite_length]; exact h)

theorem outerFold_flag (b : Board) (a : Action) :
    ∀ (l : List ℕ) (st : Board × ℕ × Bool),
      (l.foldl (outerStep b a) st).2.2 =
        (st.2.2 || l.any (fun o => (merge_vec (laneVec b a o)).2.2)) := by
  intro l
  induction l with
  | nil => intro st; simp
  | cons x xs ih =>
      intro st
      rw [List.foldl_cons, ih]
      simp [outerStep, Bool.or_assoc]

theorem outerFold_keep (b : Board) (a : Action) (o : ℕ) (ho : o < 4) :
    ∀ (l : List ℕ) (st : Board × ℕ × Bool), (∀ x ∈ l, x < 4) →
      (∀ x ∈ l, x ≠ o) →
      ((l.foldl (outerStep b a) st).1).getD (idx a o 3) 0
        = st.1.getD (idx a o 3) 0 := by
  intro l
  induction l with
  | nil => intro st _ _; rfl
  | cons x xs ih =>
      intro st hlt hne
      rw [List.foldl_cons, ih _ (fun y hy => hlt y (List.mem_cons_of_mem x hy))
        (fun y hy => hne y (List.mem_cons_of_mem x hy))]
      rw [outerStep]
      exact laneWrite_getD_other a x _ _ _
        (fun i hi => idx_ne a x (hlt x (List.mem_cons_self x xs)) i hi o ho 3
          (by omega) (fun hc => hne x (List.mem_cons_self x xs) hc.1))

theorem merge_changed_getD_last (v : Board) (hv : v.length = 4)
    (hch : (merge_vec v).2.2 = true) : (merge_vec v).1.getD 3 0 = 0 := by
  obtain ⟨pre, h1, h2, -, h4⟩ := merge_vec_structure v
  rw [h4, decide_eq_true_iff] at hch
  have hlt : pre.length ≤ 3 := by omega
  rw [h1, List.getD_eq_getElem?_getD, List.getElem?_append_right hlt,
    List.getElem?_replicate_of_lt (by omega)]
  rfl

theorem outerFold_zero (b : Board) (a : Action) (o : ℕ) (ho : o < 4)
    (hch : (merge_vec (laneVec b a o)).2.2 = true) :
    ∀ (l : List ℕ) (st : Board × ℕ × Bool), l.Nodup → (∀ x ∈ l, x < 4) →
      o ∈ l → st.1.length = 16 →
      ((l.foldl (outerStep b a) st).1).getD (idx a o 3) 0 = 0 := by
  intro l
  induction l with
  | nil => intro st _ _ hmem; exact absurd hmem (List.not_mem_nil o)
  | cons x xs ih =>
      intro st hnd hlt hmem hst
      rw [List.foldl_cons]
      rcases List.mem_cons.1 hmem with heq | hmem'
      · subst heq
        rw [outerFold_keep b a o ho xs _
          (fun y hy => hlt y (List.mem_cons_of_mem o hy))
          (fun y hy hyo => (List.nodup_cons.1 hnd).1 (hyo ▸ hy))]
        rw [outerStep]
        rw [laneWrite_getD_last a o _ _ hst ho]
        exact merge_changed_getD_last (laneVec b a o) (by simp [laneVec]) hch
      · exact ih _ (List.nodup_cons.1 hnd).2
          (fun y hy => hlt y (List.mem_cons_of_mem x hy)) hmem'
          (by rw [outerStep, laneWrite_length]; exact hst)

end TFE

namespace TFE

/-- Unfolding equation for `shift_and_merge`. -/
theorem shift_and_merge_eq (b : Board) (a : Action) :
    shift_and_merge b a =
      (((List.range 4).foldl (outerStep b a) (List.replicate 16 0, 0, false)).1,
        if ((List.range 4).foldl (outerStep b a)
            (List.replicate 16 0, 0, false)).2.2
        then some ((List.range 4).foldl (outerStep b a)
            (List.replicate 16 0, 0, false)).2.1
        else none) := rfl

/-- If `shift_and_merge` reports points (some lane changed), the merged
board has an empty cell — the zero padded into a shrunken lane — so it is
not full and `random_spawn`'s assertion holds. -/
theorem shift_some_not_full (b : Board) (a : Action) (p : ℕ)
    (h : (shift_and_merge b a).2 = some p) :
    board_full (shift_and_merge b a).1 = false := by
  rw [shift_and_merge_eq] at h ⊢
  dsimp only at h ⊢
  have hflag : ((List.range 4).foldl (outerStep b a)
      (List.replicate 16 0, 0, false)).2.2 = true := by
    by_contra hf
    rw [Bool.not_eq_true] at hf
    rw [if_neg (by rw [hf]; exact Bool.false_ne_true)] at h
    cases h
  rw [outerFold_flag, Bool.false_or, List.any_eq_true] at hflag
  obtain ⟨o, hol, hch⟩ := hflag
  have ho : o < 4 := List.mem_range.1 hol
  have hzero : (((List.range 4).foldl (outerStep b a)
      (List.replicate 16 0, 0, false)).1).getD (idx a o 3) 0 = 0 :=
    outerFold_zero b a o ho hch (List.range 4) _ (List.nodup_range 4)
      (fun x hx => List.mem_range.1 hx) hol (by simp)
  have hk : idx a o 3 < 16 := idx_lt a o ho 3 (by omega)
  have hrow : idx a o 3 / 4 < 4 := by omega
  have hcol : idx a o 3 % 4 < 4 := by omega
  have hid : idx a o 3 / 4 * 4 + idx a o 3 % 4 = idx a o 3 := by omega
  have hg : get_tile (((List.range 4).foldl (outerStep b a)
      (List.replicate 16 0, 0, false)).1) (idx a o 3 / 4)
      (idx a o 3 % 4) = 0 := by
    rw [get_tile, hid]
    exact hzero
  unfold board_full
  rw [Bool.eq_false_iff]
  intro hall
  rw [List.all_eq_true] at hall
  have h1 := hall (idx a o 3 / 4) (List.mem_range.2 hrow)
  rw [List.all_eq_true] at h1
  have h2 := h1 (idx a o 3 % 4) (List.mem_range.2 hcol)
  rw [hg] at h2
  simp at h2

end TFE

/-- C5: `TwoFortyEight::make_move` aborts exactly when the action is
illegal: the `points.expect("Illegal move")` panics if and only if the
action is absent from `allowed_actions` (which keeps precisely the
directions whose `shift_and_merge` reports a change); for a legal action
the move completes — in particular the changed board has an empty cell,
so `random_spawn`'s `assert!(!board_full)` cannot fire. -/
theorem claim_make_move_abort_iff (st : TFE.TFEState) (a : TFE.Action) :
    TFE.make_move st a = none ↔ a ∉ TFE.allowed_actions st.board := by
  have hmem : a ∈ TFE.allowed_actions st.board ↔
      (TFE.shift_and_merge st.board a).2.isSome = true := by
    unfold TFE.allowed_actions
    rw [List.mem_filter]
    have hfour : a ∈ [TFE.Action.Up, TFE.Action.Down, TFE.Action.Left,
        TFE.Action.Right] := by
      cases a <;> simp
    simp [hfour]
  constructor
  · intro h
    rw [hmem]
    intro hsome
    obtain ⟨p, hp⟩ := Option.isSome_iff_exists.1 hsome
    unfold TFE.make_move at h
    dsimp only at h
    rw [hp] at h
    dsimp only at h
    unfold TFE.random_spawn at h
    rw [if_neg (show ¬ TFE.board_full (TFE.shift_and_merge st.board a).1
        = true by
      rw [TFE.shift_some_not_full st.board a p hp]
      exact Bool.false_ne_true)] at h
    cases h
  · intro h
    unfold TFE.make_move
    dsimp only
    cases hsp : (TFE.shift_and_merge st.board a).2 with
    | none => rfl
    | some p =>
        exact absurd (hmem.2 (by rw [hsp]; rfl)) h
